import Mathlib

/-!
Verification of the lookahead reader and stream bridge of the
`web-stream-tools` repository.

The `Reader` wrapper (reader.js) is embedded as a pure state machine:
a reader owns an optional push-back buffer (`externalBuffer`, a JS array
of chunks, absent until first created) and an underlying pull source.
A chunk is a `List α` (a `Uint8Array` or a string, viewed as its list of
units); an absent (`undefined`/`null`) chunk is `none`.  The underlying
stream reader is modelled by the list of chunks it will still yield, in
order: `read()` on it pops the head, and returns "done" once the list is
empty.  The `pulls` counter counts invocations of the underlying
`this._read()` so that "the source was not consulted" is expressible.
-/

namespace WebStreamTools

structure ReaderState (α : Type) where
  buffer : Option (List (List α))
  source : List (List α)
  pulls : Nat
deriving DecidableEq

variable {α : Type}

/-- The chunks currently in the push-back buffer (empty when the
`externalBuffer` property was never created). -/
def bufChunks (s : ReaderState α) : List (List α) :=
  s.buffer.getD []

/-- All units still observable from the reader: buffered chunks first,
then the chunks the underlying source will still yield. -/
def remUnits (s : ReaderState α) : List α :=
  (bufChunks s).flatten ++ s.source.flatten

/-- Number of chunks still stored (termination measure for read loops). -/
def msize (s : ReaderState α) : Nat :=
  (bufChunks s).length + s.source.length

/-- Well-formedness from the spec's data model: chunks resident in the
push-back buffer are non-empty, and the underlying uniform pull source
never yields an empty chunk with `done=false`. -/
def WFr (s : ReaderState α) : Prop :=
  (∀ c ∈ bufChunks s, c ≠ []) ∧ (∀ c ∈ s.source, c ≠ [])

instance [DecidableEq α] (s : ReaderState α) : Decidable (WFr s) := by
  unfold WFr; infer_instance

/-- `this._read()` of a stream-backed reader: pop the next chunk of the
underlying stream, or report `{ value: undefined, done: true }` once the
stream is exhausted.  Every call bumps the `pulls` counter. -/
def underlyingRead (s : ReaderState α) : Option (List α) × ReaderState α :=
  match s.source with
  | [] => (none, { s with pulls := s.pulls + 1 })
  | c :: cs => (some c, { s with source := cs, pulls := s.pulls + 1 })

/-- `Reader.prototype.read`: if `this[externalBuffer]` exists and is
non-empty, shift its front chunk off and return it with `done=false`;
otherwise delegate to `this._read()`. -/
def read (s : ReaderState α) : Option (List α) × ReaderState α :=
  match s.buffer with
  | some (c :: rest) => (some c, { s with buffer := some rest })
  | _ => underlyingRead s

/-- JS truthiness test `value && value.length` used by `unshift`'s
filter: keeps exactly the present, non-empty chunks. -/
def chunkTruthy : Option (List α) → Bool
  | none => false
  | some c => !c.isEmpty

/-- `Reader.prototype.unshift(...values)`: create `this[externalBuffer]`
if absent, then prepend (JS `Array.prototype.unshift`) the arguments
that pass the `value && value.length` filter, in argument order, in
front of the previously buffered chunks. -/
def unshift (s : ReaderState α) (values : List (Option (List α))) : ReaderState α :=
  { s with
    buffer := some (((values.filter chunkTruthy).map (fun v => v.getD [])) ++ bufChunks s) }

/-- `Reader.prototype.readByte`: one `read()`; on done return absent,
otherwise take the first unit, push `slice(value, 1)` back and return
the unit (`value[0]`, which is absent on an empty chunk). -/
def readByte (s : ReaderState α) : Option α × ReaderState α :=
  match read s with
  | (none, s₂) => (none, s₂)
  | (some v, s₂) => (v.head?, unshift s₂ [some (v.drop 1)])


/-- Loop body of `Reader.prototype.readBytes(length)`: accumulate chunks
from `read()`; on done return `concat(buffer)` when the accumulation is
non-empty, else absent; once the accumulated length reaches `length`,
split the concatenation at `length`, push the tail back with `unshift`
and return the head. -/
def readBytesGo (s : ReaderState α) (acc : List (List α)) (len : Nat) :
    Option (List α) × ReaderState α :=
  match h : read s with
  | (none, s₂) => (if acc.isEmpty then none else some acc.flatten, s₂)
  | (some v, s₂) =>
    let acc₂ := acc ++ [v]
    if len ≤ acc₂.flatten.length then
      let c := acc₂.flatten
      (some (c.take len), unshift s₂ [some (c.drop len)])
    else
      readBytesGo s₂ acc₂ len
termination_by msize s
decreasing_by
  obtain ⟨b, src, p⟩ := s
  rcases b with _ | ⟨_ | ⟨cc, rest⟩⟩ <;>
    rcases src with _ | ⟨d, ds⟩ <;>
      simp only [read, underlyingRead, Prod.mk.injEq, Option.some.injEq,
        reduceCtorEq, false_and] at h <;>
      first
        | exact h.elim
        | (obtain ⟨h₁, h₂⟩ := h; subst h₂; simp [msize, bufChunks])

/-- `Reader.prototype.readBytes`. -/
def readBytes (s : ReaderState α) (len : Nat) : Option (List α) × ReaderState α :=
  readBytesGo s [] len

/-- `Reader.prototype.peekBytes`: `readBytes` then `unshift` the result. -/
def peekBytes (s : ReaderState α) (len : Nat) : Option (List α) × ReaderState α :=
  match readBytes s len with
  | (bytes, s₂) => (bytes, unshift s₂ [bytes])

/-- `lineEndIndex = value.indexOf('\n') + 1` of `readLine`: one past the
first newline, and `0` when the chunk has none. -/
def lineEnd (v : List Char) : Nat :=
  match v.findIdx? (fun ch => ch = '\n') with
  | some i => i + 1
  | none => 0

/-- Loop body of `Reader.prototype.readLine`: accumulate chunks until one
contains a newline; the accumulation plus the chunk's head through the
newline is returned, the chunk's tail after the newline (if any) is
pushed back; on done, return the accumulation if non-empty, else absent. -/
def readLineGo (s : ReaderState Char) (buffer : List (List Char)) :
    Option (List Char) × ReaderState Char :=
  match h : read s with
  | (none, s₂) => (if buffer.isEmpty then none else some buffer.flatten, s₂)
  | (some v, s₂) =>
    let i := lineEnd v
    if i = 0 then
      readLineGo s₂ (if i ≠ v.length then buffer ++ [v.drop i] else buffer)
    else
      let returnVal := (buffer ++ [v.take i]).flatten
      let rest : List (List Char) := if i ≠ v.length then [v.drop i] else []
      (some returnVal, unshift s₂ (rest.map some))
termination_by msize s
decreasing_by
  obtain ⟨b, src, p⟩ := s
  rcases b with _ | ⟨_ | ⟨cc, rest⟩⟩ <;>
    rcases src with _ | ⟨d, ds⟩ <;>
      simp only [read, underlyingRead, Prod.mk.injEq, Option.some.injEq,
        reduceCtorEq, false_and] at h <;>
      first
        | exact h.elim
        | (obtain ⟨h₁, h₂⟩ := h; subst h₂; simp [msize, bufChunks])

/-- `Reader.prototype.readLine`. -/
def readLine (s : ReaderState Char) : Option (List Char) × ReaderState Char :=
  readLineGo s []

/-- Loop of `Reader.prototype.readToEnd`: collect every chunk until done. -/
def readToEndGo (s : ReaderState α) (acc : List (List α)) :
    List (List α) × ReaderState α :=
  match h : read s with
  | (none, s₂) => (acc, s₂)
  | (some v, s₂) => readToEndGo s₂ (acc ++ [v])
termination_by msize s
decreasing_by
  obtain ⟨b, src, p⟩ := s
  rcases b with _ | ⟨_ | ⟨cc, rest⟩⟩ <;>
    rcases src with _ | ⟨d, ds⟩ <;>
      simp only [read, underlyingRead, Prod.mk.injEq, Option.some.injEq,
        reduceCtorEq, false_and] at h <;>
      first
        | exact h.elim
        | (obtain ⟨h₁, h₂⟩ := h; subst h₂; simp [msize, bufChunks])

/-- `Reader.prototype.readToEnd(join)`: `join` applied to all chunks
(defaulting to concatenation is the caller's choice of `join`). -/
def readToEnd (s : ReaderState α) (join : List (List α) → β) :
    β × ReaderState α :=
  match readToEndGo s [] with
  | (acc, s₂) => (join acc, s₂)



/-- Spec-side description of the chunks `unshift` keeps: drop the
absent arguments, drop the empty ones, preserve the argument order. -/
def keptChunks (vs : List (Option (List α))) : List (List α) :=
  (vs.filterMap id).filter (fun c => !c.isEmpty)

/-!
Heap model for `releaseLock` and the constructor's buffer inheritance.

`releaseLock` runs `this.stream[externalBuffer] = this[externalBuffer]`,
an assignment of an array *reference*, while the constructor runs
`this[externalBuffer] = input[externalBuffer].slice()`, which copies.
To reason about this aliasing the JS arrays-of-chunks live in a store of
cells; a reader and the input object hold optional references into it.
-/

/-- The heap: array cells (each an array of chunks), the input object's
`externalBuffer` property, and whether the source lock was released. -/
structure World (α : Type) where
  cells : List (List (List α))
  streamExt : Option Nat
  released : Bool
deriving DecidableEq

/-- A reader object: its `externalBuffer` property, a reference. -/
structure RefReader where
  bufRef : Option Nat
deriving DecidableEq

/-- Dereference a cell. -/
def World.get (w : World α) (r : Nat) : List (List α) :=
  (w.cells.get? r).getD []

/-- Allocate a fresh array holding `v`. -/
def World.alloc (w : World α) (v : List (List α)) : World α × Nat :=
  ({ w with cells := w.cells ++ [v] }, w.cells.length)

/-- Overwrite the contents of cell `r` (in-place array mutation). -/
def World.setCell (w : World α) (r : Nat) (v : List (List α)) : World α :=
  { w with cells := w.cells.set r v }

/-- Constructor inheritance (lines 28-30 of reader.js): if the input
carries an `externalBuffer`, the new reader gets a `.slice()` copy of it
in a fresh cell; otherwise it has none. -/
def newReader (w : World α) : World α × RefReader :=
  match w.streamExt with
  | some r =>
    match w.alloc (w.get r) with
    | (w₂, r₂) => (w₂, ⟨some r₂⟩)
  | none => (w, ⟨none⟩)

/-- `unshift` in the heap model: create `this[externalBuffer] = []` in a
fresh cell if absent, then mutate the array in place, prepending the
arguments that pass the `value && value.length` filter. -/
def refUnshift (w : World α) (rd : RefReader) (vs : List (Option (List α))) :
    World α × RefReader :=
  match rd.bufRef with
  | some r =>
    (w.setCell r ((vs.filter chunkTruthy).map (fun v => v.getD []) ++ w.get r), rd)
  | none =>
    match w.alloc [] with
    | (w₂, r) =>
      (w₂.setCell r ((vs.filter chunkTruthy).map (fun v => v.getD []) ++ w₂.get r),
        ⟨some r⟩)

/-- `Reader.prototype.releaseLock` in the heap model: if the reader has
an `externalBuffer` array (even an empty one — an empty JS array is
truthy), store the *reference* to it on the input object, then call the
underlying `_releaseLock`. -/
def readerRelease (w : World α) (rd : RefReader) : World α :=
  match rd.bufRef with
  | some r => { w with streamExt := some r, released := true }
  | none => { w with released := true }

/-!
One-shot scalar source (`Reader` constructor for non-stream input,
lines 45-68 of reader.js).  Its state is the closure flag `doneReading`
plus whether this input is in the process-wide `doneReadingSet`.
`WeakSet.prototype.add` throws a `TypeError` on a primitive
(non-object) input; the `try { ... } catch (e) {}` swallows it, so
exhaustion is recorded only when the input is an object.
-/

/-- `this._read` of a one-shot source over value `v`:
`(result, doneReading after)`. -/
def oneShotRead (v : α) (doneReading inSet : Bool) : Option α × Bool :=
  if doneReading || inSet then (none, doneReading) else (some v, true)

/-- `this._releaseLock` of a one-shot source: membership of the input in
`doneReadingSet` afterwards. -/
def oneShotRelease (isObject doneReading inSet : Bool) : Bool :=
  if doneReading then (if isObject then true else inSet) else inSet

/-!
Pull-to-push adapter (`NodeReadable._read` of streams' node conversion).
One solicited read starts an asynchronous drain loop that repeatedly
awaits `reader.read()` and pushes downstream.  A pull either yields a
chunk or rejects with an error `e`; the downstream `push` returns
whether more data is wanted.
-/

/-- One event of the wrapped pull source: a chunk, or a rejection. -/
inductive PullEv (ε γ : Type) where
  | chunk : γ → PullEv ε γ
  | fail : ε → PullEv ε γ
deriving DecidableEq

/-- One downstream event: `push(value)`, `push(null)` (end of data), or
an emitted error event. -/
inductive DownEv (ε γ : Type) where
  | data : γ → DownEv ε γ
  | eof : DownEv ε γ
  | errorEv : ε → DownEv ε γ
deriving DecidableEq

/-- The `try`-block of the drain loop, before the `catch`: the
downstream events it performs, the exception escaping it (if any), and
the `_reading` flag afterwards.  `accept c` is what `this.push(c)`
returns; `cancelling` is `this._cancelling`. -/
def tryLoop (cancelling : Bool) (accept : γ → Bool) :
    List (PullEv ε γ) → List (DownEv ε γ) × Option ε × Bool
  | [] => ([DownEv.eof], none, true)
  | PullEv.fail e :: _ => ([], some e, true)
  | PullEv.chunk c :: rest =>
    if accept c && !cancelling then
      match tryLoop cancelling accept rest with
      | (evs, ex, reading) => (DownEv.data c :: evs, ex, reading)
    else
      ([DownEv.data c], none, false)

/-- The drain loop with its `catch` block, which emits the caught
exception downstream: an escaping exception becomes a final downstream
error event. -/
def doRead (cancelling : Bool) (accept : γ → Bool) (source : List (PullEv ε γ)) :
    List (DownEv ε γ) :=
  match tryLoop cancelling accept source with
  | (evs, none, _) => evs
  | (evs, some e, _) => evs ++ [DownEv.errorEv e]

/-- The solicited-read entry point `_read(size)`: returns immediately
when already reading or cancelling, else launches the drain loop.  Its
result is `Except.error` only if an exception escapes synchronously. -/
def nodeReadEntry (reading cancelling : Bool) (accept : γ → Bool)
    (source : List (PullEv ε γ)) : Except ε (List (DownEv ε γ)) :=
  if reading || cancelling then Except.ok []
  else Except.ok (doRead cancelling accept source)

/-- Concrete heap trace, step 1: a fresh reader over an input with no
attached buffer pushes back the chunk `[1]`. -/
def c6Step1 : World Nat × RefReader :=
  refUnshift ⟨[], none, false⟩ ⟨none⟩ [some [1]]

/-- The released reader's buffer contents at the moment of `releaseLock`. -/
def c6AtRelease : List (List Nat) :=
  c6Step1.1.get (c6Step1.2.bufRef.getD 0)

/-- Step 2: the reader releases its lock (attaching its buffer array to
the input object). -/
def c6Released : World Nat :=
  readerRelease c6Step1.1 c6Step1.2

/-- Step 3: after release, the released reader's buffer is mutated by a
further `unshift` of the chunk `[2]`. -/
def c6Mutated : World Nat :=
  (refUnshift c6Released c6Step1.2 [some [2]]).1

/-- Step 4: a second reader is constructed over the same input. -/
def c6Second : World Nat × RefReader :=
  newReader c6Mutated

/-- What the second reader inherits into its own buffer. -/
def c6Inherited : List (List Nat) :=
  c6Second.1.get (c6Second.2.bufRef.getD 0)

lemma read_none_state (s : ReaderState α) (s₂ : ReaderState α)
    (h : read s = (none, s₂)) :
    s₂ = { s with pulls := s.pulls + 1 } ∧ bufChunks s = [] ∧
      s.source = [] := by
  obtain ⟨b, src, p⟩ := s
  rcases b with _ | ⟨_ | ⟨c, rest⟩⟩ <;>
    rcases src with _ | ⟨d, ds⟩ <;>
      simp only [read, underlyingRead, Prod.mk.injEq, reduceCtorEq,
        false_and, true_and] at h <;>
      first
        | exact h.elim
        | (subst h; simp [bufChunks])

lemma read_some_msize (s s₂ : ReaderState α) (v : List α)
    (h : read s = (some v, s₂)) : msize s₂ < msize s := by
  obtain ⟨b, src, p⟩ := s
  rcases b with _ | ⟨_ | ⟨c, rest⟩⟩ <;>
    rcases src with _ | ⟨d, ds⟩ <;>
      simp only [read, underlyingRead, Prod.mk.injEq, Option.some.injEq,
        reduceCtorEq, false_and] at h <;>
      first
        | exact h.elim
        | (obtain ⟨h₁, h₂⟩ := h; subst h₂; simp [msize, bufChunks])

lemma read_some_spec (s s₂ : ReaderState α) (v : List α)
    (h : read s = (some v, s₂)) (hwf : WFr s) :
    v ≠ [] ∧ WFr s₂ ∧ v ++ remUnits s₂ = remUnits s := by
  obtain ⟨hwb, hws⟩ := hwf
  obtain ⟨b, src, p⟩ := s
  rcases b with _ | ⟨_ | ⟨c, rest⟩⟩ <;>
    rcases src with _ | ⟨d, ds⟩ <;>
      simp only [read, underlyingRead, Prod.mk.injEq, Option.some.injEq,
        reduceCtorEq, false_and] at h <;>
      first
        | exact h.elim
        | (obtain ⟨h₁, h₂⟩ := h; subst h₂; refine ⟨?_, ⟨?_, ?_⟩, ?_⟩ <;>
            simp_all [WFr, bufChunks, remUnits])

lemma readBytesGo_eq_none {s s₂ : ReaderState α} {acc : List (List α)} {len : Nat}
    (h : read s = (none, s₂)) :
    readBytesGo s acc len = (if acc.isEmpty then none else some acc.flatten, s₂) := by
  rw [readBytesGo.eq_def]
  split <;> rename_i heq <;> rw [h] at heq <;> simp_all

lemma readBytesGo_eq_some {s s₂ : ReaderState α} {v : List α} {acc : List (List α)} {len : Nat}
    (h : read s = (some v, s₂)) :
    readBytesGo s acc len =
      (if len ≤ (acc ++ [v]).flatten.length then
        (some ((acc ++ [v]).flatten.take len),
          unshift s₂ [some ((acc ++ [v]).flatten.drop len)])
      else readBytesGo s₂ (acc ++ [v]) len) := by
  rw [readBytesGo.eq_def]
  split <;> rename_i heq <;> rw [h] at heq <;> simp_all

lemma unshift_source (s : ReaderState α) (vs : List (Option (List α))) :
    (unshift s vs).source = s.source := rfl

lemma unshift_pulls (s : ReaderState α) (vs : List (Option (List α))) :
    (unshift s vs).pulls = s.pulls := rfl

lemma bufChunks_unshift (s : ReaderState α) (vs : List (Option (List α))) :
    bufChunks (unshift s vs) =
      (vs.filter chunkTruthy).map (fun v => v.getD []) ++ bufChunks s := rfl

lemma kept_ne_nil {vs : List (Option (List α))} {c : List α}
    (hc : c ∈ (vs.filter chunkTruthy).map (fun v => v.getD [])) : c ≠ [] := by
  simp only [List.mem_map, List.mem_filter] at hc
  obtain ⟨v, ⟨-, hv⟩, rfl⟩ := hc
  cases v with
  | none => simp [chunkTruthy] at hv
  | some c => simpa [chunkTruthy, List.isEmpty_iff] using hv

lemma bufWF_unshift {s : ReaderState α} (hb : ∀ c ∈ bufChunks s, c ≠ [])
    (vs : List (Option (List α))) : ∀ c ∈ bufChunks (unshift s vs), c ≠ [] := by
  intro c hc
  rw [bufChunks_unshift, List.mem_append] at hc
  rcases hc with hc | hc
  · exact kept_ne_nil hc
  · exact hb c hc

lemma WFr_unshift {s : ReaderState α} (hwf : WFr s)
    (vs : List (Option (List α))) : WFr (unshift s vs) :=
  ⟨bufWF_unshift hwf.1 vs, hwf.2⟩

lemma remUnits_unshift_some (s : ReaderState α) (v : List α) :
    remUnits (unshift s [some v]) = v ++ remUnits s := by
  rcases hv : v with _ | ⟨a, rest⟩ <;>
    simp [remUnits, bufChunks_unshift, unshift_source, chunkTruthy]

lemma unshift_none_eq (s : ReaderState α) :
    unshift s [none] = { s with buffer := some (bufChunks s) } := by
  simp [unshift, chunkTruthy]

lemma flatten_ne_nil_of {l : List (List α)} (h : l ≠ [])
    (hc : ∀ c ∈ l, c ≠ []) : l.flatten ≠ [] := by
  cases l with
  | nil => exact absurd rfl h
  | cons c rest =>
    have : c ≠ [] := hc c (by simp)
    cases c with
    | nil => exact absurd rfl this
    | cons a as => simp

lemma bufChunks_pulls (s : ReaderState α) (p : Nat) :
    bufChunks { s with pulls := p } = bufChunks s := rfl

lemma remUnits_pulls (s : ReaderState α) (p : Nat) :
    remUnits { s with pulls := p } = remUnits s := rfl

lemma WFr_pulls (s : ReaderState α) (p : Nat) :
    WFr { s with pulls := p } ↔ WFr s := Iff.rfl

lemma go_read_none (len : Nat) {s s₂ : ReaderState α} {acc : List (List α)}
    (hr : read s = (none, s₂)) (hwf : WFr s)
    (hacc : ∀ c ∈ acc, c ≠ []) (hlt : acc.flatten.length < len ∨ acc = []) :
    (acc = [] ∧ remUnits s = [] ∧
      readBytesGo s acc len = (none, { s with pulls := s.pulls + 1 }))
    ∨ ((acc.flatten ++ remUnits s) ≠ [] ∧ (acc.flatten ++ remUnits s).length < len ∧
      ∃ s₂, readBytesGo s acc len = (some (acc.flatten ++ remUnits s), s₂) ∧
        remUnits s₂ = [] ∧ bufChunks s₂ = [] ∧ WFr s₂)
    ∨ (len ≤ (acc.flatten ++ remUnits s).length ∧ (acc.flatten ++ remUnits s) ≠ [] ∧
      ∃ s₂ c, readBytesGo s acc len = (some (c.take len), unshift s₂ [some (c.drop len)]) ∧
        acc.flatten ++ remUnits s = c ++ remUnits s₂ ∧ len ≤ c.length ∧ WFr s₂) := by
  obtain ⟨hs₂, hbufs, hsrc⟩ := read_none_state s s₂ hr
  have hrem : remUnits s = [] := by simp [remUnits, hbufs, hsrc]
  rw [readBytesGo_eq_none hr]
  by_cases ha : acc = []
  · left
    refine ⟨ha, hrem, ?_⟩
    simp [ha, hs₂]
  · right; left
    have hfl : acc.flatten ≠ [] := flatten_ne_nil_of ha hacc
    have hltl : acc.flatten.length < len := hlt.resolve_right ha
    refine ⟨by simp [hrem, hfl], by simpa [hrem] using hltl, s₂, ?_, ?_, ?_, ?_⟩
    · simp [hrem, List.isEmpty_iff, ha]
    · rw [hs₂, remUnits_pulls, hrem]
    · rw [hs₂, bufChunks_pulls, hbufs]
    · rw [hs₂, WFr_pulls]; exact hwf

theorem readBytesGo_spec (len : Nat) :
    ∀ (m : Nat) (s : ReaderState α) (acc : List (List α)), msize s ≤ m → WFr s →
      (∀ c ∈ acc, c ≠ []) → (acc.flatten.length < len ∨ acc = []) →
      (acc = [] ∧ remUnits s = [] ∧
        readBytesGo s acc len = (none, { s with pulls := s.pulls + 1 }))
      ∨ ((acc.flatten ++ remUnits s) ≠ [] ∧ (acc.flatten ++ remUnits s).length < len ∧
        ∃ s₂, readBytesGo s acc len = (some (acc.flatten ++ remUnits s), s₂) ∧
          remUnits s₂ = [] ∧ bufChunks s₂ = [] ∧ WFr s₂)
      ∨ (len ≤ (acc.flatten ++ remUnits s).length ∧ (acc.flatten ++ remUnits s) ≠ [] ∧
        ∃ s₂ c, readBytesGo s acc len = (some (c.take len), unshift s₂ [some (c.drop len)]) ∧
          acc.flatten ++ remUnits s = c ++ remUnits s₂ ∧ len ≤ c.length ∧ WFr s₂) := by
  intro m
  induction m with
  | zero =>
    intro s acc hm hwf hacc hlt
    rcases hr : read s with ⟨_ | v, s₂⟩
    · exact go_read_none len hr hwf hacc hlt
    · have := read_some_msize s s₂ v hr
      omega
  | succ n ih =>
    intro s acc hm hwf hacc hlt
    rcases hr : read s with ⟨_ | v, s₂⟩
    · exact go_read_none len hr hwf hacc hlt
    · obtain ⟨hv, hwf₂, hrem₂⟩ := read_some_spec s s₂ v hr hwf
      have hflat : (acc ++ [v]).flatten = acc.flatten ++ v := by simp
      have hall : acc.flatten ++ remUnits s = (acc ++ [v]).flatten ++ remUnits s₂ := by
        rw [hflat, ← hrem₂, List.append_assoc]
      rw [readBytesGo_eq_some hr]
      by_cases hle : len ≤ (acc ++ [v]).flatten.length
      · right; right
        rw [if_pos hle]
        have hvne : (acc ++ [v]).flatten ≠ [] := by
          rw [hflat]
          intro hcon
          exact hv (List.append_eq_nil.mp hcon).2
        refine ⟨?_, ?_, s₂, (acc ++ [v]).flatten, rfl, hall, hle, hwf₂⟩
        · rw [hall, List.length_append]; omega
        · rw [hall]
          intro hcon
          exact hvne (List.append_eq_nil.mp hcon).1
      · rw [if_neg hle]
        have hm₂ : msize s₂ ≤ n := by
          have := read_some_msize s s₂ v hr
          omega
        have hacc₂ : ∀ c ∈ acc ++ [v], c ≠ [] := by
          intro c hc
          rcases List.mem_append.mp hc with hc | hc
          · exact hacc c hc
          · simpa using List.mem_singleton.mp hc ▸ hv
        have hlt₂ : (acc ++ [v]).flatten.length < len ∨ acc ++ [v] = [] :=
          Or.inl (by omega)
        rcases ih s₂ (acc ++ [v]) hm₂ hwf₂ hacc₂ hlt₂ with
          ⟨hnil, -, -⟩ | ⟨h1, h2, s₃, h3, h4, h5, h6⟩ | ⟨h1, h2, s₃, c, h3, h4, h5, h6⟩
        · exact absurd hnil (by simp)
        · right; left
          rw [hall]
          exact ⟨h1, h2, s₃, h3, h4, h5, h6⟩
        · right; right
          rw [hall]
          exact ⟨h1, h2, s₃, c, h3, h4, h5, h6⟩


lemma peekBytes_eq (s : ReaderState α) (len : Nat) :
    peekBytes s len =
      ((readBytes s len).1, unshift (readBytes s len).2 [(readBytes s len).1]) := by
  unfold peekBytes
  rcases readBytes s len with ⟨b, s₂⟩
  rfl

/-- Content-level characterisation of `readBytes`, derived from the loop
invariant `readBytesGo_spec`. -/
theorem readBytes_spec (s : ReaderState α) (len : Nat) (hwf : WFr s) :
    (remUnits s = [] → readBytes s len = (none, { s with pulls := s.pulls + 1 })) ∧
    (remUnits s ≠ [] → (remUnits s).length < len →
      ∃ s₂, readBytes s len = (some (remUnits s), s₂) ∧
        remUnits s₂ = [] ∧ bufChunks s₂ = [] ∧ WFr s₂) ∧
    (remUnits s ≠ [] → len ≤ (remUnits s).length →
      (∃ s₂ c, readBytes s len = (some (c.take len), unshift s₂ [some (c.drop len)]) ∧
        remUnits s = c ++ remUnits s₂ ∧ len ≤ c.length ∧ WFr s₂) ∧
      (readBytes s len).1 = some ((remUnits s).take len) ∧
      remUnits (readBytes s len).2 = (remUnits s).drop len ∧
      WFr (readBytes s len).2) := by
  have H := readBytesGo_spec len (msize s) s [] le_rfl hwf (by simp) (Or.inr rfl)
  simp only [List.flatten_nil, List.nil_append] at H
  unfold readBytes
  refine ⟨?_, ?_, ?_⟩
  · intro hrem
    rcases H with ⟨-, -, h⟩ | ⟨hne, -, -⟩ | ⟨-, hne, -⟩
    · exact h
    · exact absurd hrem hne
    · exact absurd hrem hne
  · intro hne hlen
    rcases H with ⟨-, hrem, -⟩ | ⟨-, -, s₂, h1, h2, h3, h4⟩ | ⟨hle, -, -⟩
    · exact absurd hrem hne
    · exact ⟨s₂, h1, h2, h3, h4⟩
    · omega
  · intro hne hlen
    rcases H with ⟨-, hrem, -⟩ | ⟨-, hlt, -⟩ | ⟨-, -, s₂, c, h1, h2, h3, h4⟩
    · exact absurd hrem hne
    · omega
    · have htake : c.take len = (remUnits s).take len := by
        rw [h2, List.take_append_eq_append_take,
          Nat.sub_eq_zero_of_le h3, List.take_zero, List.append_nil]
      have hdrop : (remUnits s).drop len = c.drop len ++ remUnits s₂ := by
        rw [h2, List.drop_append_eq_append_drop,
          Nat.sub_eq_zero_of_le h3, List.drop_zero]
      refine ⟨⟨s₂, c, h1, h2, h3, h4⟩, ?_, ?_, ?_⟩
      · rw [h1, htake]
      · rw [h1]
        simpa [remUnits_unshift_some] using hdrop.symm
      · rw [h1]
        exact WFr_unshift h4 _


/-- C1: with a non-empty push-back buffer, `read()` returns the
frontmost buffered chunk with `done=false` (`some`), removes exactly
that chunk from the buffer and leaves the source and the pull counter
untouched (the underlying `_read` is not invoked); the underlying
source is consulted (`read` delegates to `underlyingRead`) exactly when
the buffer is absent or empty. -/
theorem claim_C1_buffer_first (s : ReaderState α) :
    (∀ c rest, s.buffer = some (c :: rest) →
      read s = (some c, { s with buffer := some rest })) ∧
    (s.buffer = none ∨ s.buffer = some [] → read s = underlyingRead s) := by
  constructor
  · intro c rest h
    simp [read, h]
  · rintro (h | h) <;> simp [read, h]

theorem claim_C1_buffer_first_witness :
    read (⟨some [[1], [2]], [[3]], 0⟩ : ReaderState Nat) =
      (some [1], ⟨some [[2]], [[3]], 0⟩) ∧
    read (⟨none, [[3]], 5⟩ : ReaderState Nat) =
      underlyingRead ⟨none, [[3]], 5⟩ :=
  ⟨(claim_C1_buffer_first ⟨some [[1], [2]], [[3]], 0⟩).1 [1] [[2]] rfl,
   (claim_C1_buffer_first ⟨none, [[3]], 5⟩).2 (Or.inl rfl)⟩

/-- C4: `readBytes(n)` accumulates chunks until the accumulated length
reaches `n` or the source terminates.  Termination first with nothing
accumulated returns absent; termination first with a non-empty
accumulation returns the whole (short) accumulation; otherwise the
first `n` units of the concatenation are returned and the remainder is
pushed back through a single `unshift` of one chunk. -/
theorem claim_C4_readBytes (s : ReaderState α) (n : Nat) (hwf : WFr s) :
    (remUnits s = [] → readBytes s n = (none, { s with pulls := s.pulls + 1 })) ∧
    (remUnits s ≠ [] → (remUnits s).length < n →
      ∃ s₂, readBytes s n = (some (remUnits s), s₂) ∧ remUnits s₂ = []) ∧
    (remUnits s ≠ [] → n ≤ (remUnits s).length →
      (∃ s₂ c, readBytes s n = (some (c.take n), unshift s₂ [some (c.drop n)]) ∧
        remUnits s = c ++ remUnits s₂ ∧ n ≤ c.length) ∧
      (readBytes s n).1 = some ((remUnits s).take n) ∧
      remUnits (readBytes s n).2 = (remUnits s).drop n) := by
  obtain ⟨h1, h2, h3⟩ := readBytes_spec s n hwf
  refine ⟨h1, ?_, ?_⟩
  · intro hne hlen
    obtain ⟨s₂, g1, g2, -, -⟩ := h2 hne hlen
    exact ⟨s₂, g1, g2⟩
  · intro hne hlen
    obtain ⟨⟨s₂, c, g1, g2, g3, -⟩, g4, g5, -⟩ := h3 hne hlen
    exact ⟨⟨s₂, c, g1, g2, g3⟩, g4, g5⟩

theorem claim_C4_readBytes_witness :
    (remUnits (⟨some [[1, 2]], [[3]], 0⟩ : ReaderState Nat) ≠ [] ∧
      (remUnits (⟨some [[1, 2]], [[3]], 0⟩ : ReaderState Nat)).length < 100 ∧
      ∃ s₂, readBytes (⟨some [[1, 2]], [[3]], 0⟩ : ReaderState Nat) 100 =
        (some (remUnits (⟨some [[1, 2]], [[3]], 0⟩ : ReaderState Nat)), s₂) ∧
        remUnits s₂ = []) ∧
    (readBytes (⟨some [[1, 2]], [[3]], 0⟩ : ReaderState Nat) 2).1 =
      some ((remUnits (⟨some [[1, 2]], [[3]], 0⟩ : ReaderState Nat)).take 2) :=
  ⟨⟨by decide, by decide,
    (claim_C4_readBytes ⟨some [[1, 2]], [[3]], 0⟩ 100 (by decide)).2.1
      (by decide) (by decide)⟩,
   ((claim_C4_readBytes ⟨some [[1, 2]], [[3]], 0⟩ 2 (by decide)).2.2
      (by decide) (by decide)).2.1⟩


/-- C3: `peekBytes(n)` followed by `readBytes(n)` yields the identical
result (also in the short-read and exhausted cases), and `peekBytes`
leaves the observable unit sequence of the reader unchanged. -/
theorem claim_C3_peek_nondestructive (s : ReaderState α) (n : Nat) (hwf : WFr s) :
    (readBytes (peekBytes s n).2 n).1 = (peekBytes s n).1 ∧
    remUnits (peekBytes s n).2 = remUnits s ∧
    WFr (peekBytes s n).2 := by
  rw [peekBytes_eq]
  by_cases h0 : remUnits s = []
  · have h1 := (readBytes_spec s n hwf).1 h0
    rw [h1]
    simp only [unshift_none_eq]
    set s₃ : ReaderState α :=
      { { s with pulls := s.pulls + 1 } with
        buffer := some (bufChunks { s with pulls := s.pulls + 1 }) } with hs₃
    have hbuf₃ : bufChunks s₃ = bufChunks s := by
      simp [hs₃, bufChunks]
    have hrem₃ : remUnits s₃ = remUnits s := by
      simp [remUnits, hbuf₃, hs₃]
    have hwf₃ : WFr s₃ := by
      refine ⟨?_, hwf.2⟩
      rw [hbuf₃]
      exact hwf.1
    have h2 := (readBytes_spec s₃ n hwf₃).1 (by rw [hrem₃, h0])
    rw [h2]
    exact ⟨rfl, by rw [hrem₃, h0], hwf₃⟩
  · by_cases hlen : (remUnits s).length < n
    · obtain ⟨s₂, heq, hrem₂, -, hwf₂⟩ := (readBytes_spec s n hwf).2.1 h0 hlen
      rw [heq]
      simp only
      have hrem' : remUnits (unshift s₂ [some (remUnits s)]) = remUnits s := by
        rw [remUnits_unshift_some, hrem₂, List.append_nil]
      have hwf' : WFr (unshift s₂ [some (remUnits s)]) := WFr_unshift hwf₂ _
      obtain ⟨s₄, g1, -, -, -⟩ :=
        (readBytes_spec (unshift s₂ [some (remUnits s)]) n hwf').2.1
          (by rw [hrem']; exact h0) (by rw [hrem']; exact hlen)
      rw [g1, hrem']
      exact ⟨rfl, rfl, hwf'⟩
    · push_neg at hlen
      obtain ⟨-, h1, h2, hwf'⟩ := (readBytes_spec s n hwf).2.2 h0 hlen
      rcases hrb : readBytes s n with ⟨b, s₂⟩
      rw [hrb] at h1 h2 hwf'
      simp only at h1 h2 hwf' ⊢
      subst h1
      have hrem' : remUnits (unshift s₂ [some ((remUnits s).take n)]) = remUnits s := by
        rw [remUnits_unshift_some, h2, List.take_append_drop]
      have hwf'' : WFr (unshift s₂ [some ((remUnits s).take n)]) := WFr_unshift hwf' _
      obtain ⟨-, g4, -, -⟩ :=
        (readBytes_spec (unshift s₂ [some ((remUnits s).take n)]) n hwf'').2.2
          (by rw [hrem']; exact h0) (by rw [hrem']; exact hlen)
      rw [g4, hrem']
      exact ⟨rfl, rfl, hwf''⟩

theorem claim_C3_peek_nondestructive_witness :
    (readBytes (peekBytes (⟨some [[1, 2]], [[3, 4]], 0⟩ : ReaderState Nat) 3).2 3).1 =
      (peekBytes (⟨some [[1, 2]], [[3, 4]], 0⟩ : ReaderState Nat) 3).1 ∧
    remUnits (peekBytes (⟨some [[1, 2]], [[3, 4]], 0⟩ : ReaderState Nat) 3).2 =
      remUnits (⟨some [[1, 2]], [[3, 4]], 0⟩ : ReaderState Nat) :=
  ⟨(claim_C3_peek_nondestructive ⟨some [[1, 2]], [[3, 4]], 0⟩ 3 (by decide)).1,
   (claim_C3_peek_nondestructive ⟨some [[1, 2]], [[3, 4]], 0⟩ 3 (by decide)).2.1⟩

/-- C10: `peekBytes(n)` on a reader whose buffer holds no chunk and
whose source is exhausted returns absent for every `n`, inserts nothing
into the push-back buffer, leaves the source unchanged, and a
subsequent `read()` still reports `done=true`. -/
theorem claim_C10_peek_exhausted (s : ReaderState α) (n : Nat)
    (hbuf : bufChunks s = []) (hsrc : s.source = []) :
    (peekBytes s n).1 = none ∧
    bufChunks (peekBytes s n).2 = [] ∧
    (peekBytes s n).2.source = s.source ∧
    (read (peekBytes s n).2).1 = none := by
  have hwf : WFr s := by
    constructor
    · rw [hbuf]; intro c hc; cases hc
    · rw [hsrc]; intro c hc; cases hc
  have hrem : remUnits s = [] := by simp [remUnits, hbuf, hsrc]
  have h1 := (readBytes_spec s n hwf).1 hrem
  have hb2 : bufChunks { s with pulls := s.pulls + 1 } = ([] : List (List α)) := hbuf
  rw [peekBytes_eq, h1, unshift_none_eq]
  dsimp only
  refine ⟨rfl, ?_, rfl, ?_⟩
  · simpa [bufChunks] using hbuf
  · rw [hb2]
    simp [read, underlyingRead, hsrc]

theorem claim_C10_peek_exhausted_witness :
    (peekBytes (⟨some [], [], 7⟩ : ReaderState Nat) 5).1 = none ∧
    bufChunks (peekBytes (⟨some [], [], 7⟩ : ReaderState Nat) 5).2 = [] ∧
    (read (peekBytes (⟨some [], [], 7⟩ : ReaderState Nat) 5).2).1 = none :=
  ⟨(claim_C10_peek_exhausted ⟨some [], [], 7⟩ 5 rfl rfl).1,
   (claim_C10_peek_exhausted ⟨some [], [], 7⟩ 5 rfl rfl).2.1,
   (claim_C10_peek_exhausted ⟨some [], [], 7⟩ 5 rfl rfl).2.2.2⟩

lemma kept_eq (vs : List (Option (List α))) :
    (vs.filter chunkTruthy).map (fun v => v.getD []) = keptChunks vs := by
  induction vs with
  | nil => rfl
  | cons v rest ih =>
    cases v with
    | none => simpa [keptChunks, chunkTruthy] using ih
    | some c =>
      by_cases hc : c.isEmpty <;>
        simp_all [keptChunks, chunkTruthy]

/-- C8: `unshift(...chunks)` prepends exactly the present, non-empty
arguments, in argument order (first argument frontmost), in front of
the previously buffered chunks, which keep their order; empty or absent
arguments are dropped silently; the source and pull counter are
untouched. -/
theorem claim_C8_unshift_prepend (s : ReaderState α) (vs : List (Option (List α))) :
    bufChunks (unshift s vs) = keptChunks vs ++ bufChunks s ∧
    (unshift s vs).source = s.source ∧
    (unshift s vs).pulls = s.pulls ∧
    (∀ c ∈ keptChunks vs, c ≠ []) := by
  refine ⟨?_, rfl, rfl, ?_⟩
  · rw [bufChunks_unshift, kept_eq]
  · intro c hc
    rw [← kept_eq] at hc
    exact kept_ne_nil hc

/-- C5: over the source yielding exactly the chunks `"ab"`, `"c\nde"`,
`"f\n"`, `"g"`, four successive `readLine()` calls return `"abc\n"`,
`"def\n"`, `"g"` (on termination) and then absent. -/
theorem claim_C5_line_splitting :
    (readLine (⟨none, ["ab".toList, "c\nde".toList, "f\n".toList, "g".toList], 0⟩ :
        ReaderState Char)).1 = some "abc\n".toList ∧
    (readLine (readLine (⟨none, ["ab".toList, "c\nde".toList, "f\n".toList, "g".toList], 0⟩ :
        ReaderState Char)).2).1 = some "def\n".toList ∧
    (readLine (readLine (readLine (⟨none, ["ab".toList, "c\nde".toList, "f\n".toList,
        "g".toList], 0⟩ : ReaderState Char)).2).2).1 = some "g".toList ∧
    (readLine (readLine (readLine (readLine (⟨none, ["ab".toList, "c\nde".toList,
        "f\n".toList, "g".toList], 0⟩ : ReaderState Char)).2).2).2).1 = none := by
  simp [readLine, readLineGo, read, underlyingRead, lineEnd, unshift, bufChunks, chunkTruthy]

lemma read_buf_sub {s s₂ : ReaderState α} {r : Option (List α)}
    (h : read s = (r, s₂)) : ∀ c ∈ bufChunks s₂, c ∈ bufChunks s := by
  obtain ⟨b, src, p⟩ := s
  rcases b with _ | ⟨_ | ⟨c0, rest⟩⟩ <;>
    rcases src with _ | ⟨d, ds⟩ <;>
      simp only [read, underlyingRead, Prod.mk.injEq] at h <;>
      (obtain ⟨-, h₂⟩ := h; subst h₂; simp [bufChunks])
  · intro c hc
    exact Or.inr hc
  · intro c hc
    exact Or.inr hc

lemma readLineGo_eq_none {s s₂ : ReaderState Char} {buffer : List (List Char)}
    (h : read s = (none, s₂)) :
    readLineGo s buffer =
      (if buffer.isEmpty then none else some buffer.flatten, s₂) := by
  rw [readLineGo.eq_def]
  split <;> rename_i heq <;> rw [h] at heq <;> simp_all

lemma readLineGo_eq_some {s s₂ : ReaderState Char} {v : List Char}
    {buffer : List (List Char)} (h : read s = (some v, s₂)) :
    readLineGo s buffer =
      (if lineEnd v = 0 then
        readLineGo s₂ (if lineEnd v ≠ v.length then buffer ++ [v.drop (lineEnd v)] else buffer)
      else
        (some ((buffer ++ [v.take (lineEnd v)]).flatten),
          unshift s₂ ((if lineEnd v ≠ v.length then [v.drop (lineEnd v)] else []).map some))) := by
  rw [readLineGo.eq_def]
  split <;> rename_i heq <;> rw [h] at heq <;> simp_all

lemma readToEndGo_eq_none {s s₂ : ReaderState α} {acc : List (List α)}
    (h : read s = (none, s₂)) : readToEndGo s acc = (acc, s₂) := by
  rw [readToEndGo.eq_def]
  split <;> rename_i heq <;> rw [h] at heq <;> simp_all

lemma readToEndGo_eq_some {s s₂ : ReaderState α} {v : List α} {acc : List (List α)}
    (h : read s = (some v, s₂)) : readToEndGo s acc = readToEndGo s₂ (acc ++ [v]) := by
  rw [readToEndGo.eq_def]
  split <;> rename_i heq <;> rw [h] at heq <;> simp_all

lemma readBytesGo_bufInv (len : Nat) :
    ∀ (m : Nat) (s : ReaderState α) (acc : List (List α)), msize s ≤ m →
      (∀ c ∈ bufChunks s, c ≠ []) →
      ∀ c ∈ bufChunks (readBytesGo s acc len).2, c ≠ [] := by
  intro m
  induction m with
  | zero =>
    intro s acc hm hb
    rcases hr : read s with ⟨_ | v, s₂⟩
    · rw [readBytesGo_eq_none hr]
      intro c hc
      exact hb c (read_buf_sub hr c hc)
    · have := read_some_msize s s₂ v hr
      omega
  | succ n ih =>
    intro s acc hm hb
    rcases hr : read s with ⟨_ | v, s₂⟩
    · rw [readBytesGo_eq_none hr]
      intro c hc
      exact hb c (read_buf_sub hr c hc)
    · rw [readBytesGo_eq_some hr]
      have hb₂ : ∀ c ∈ bufChunks s₂, c ≠ [] := fun c hc => hb c (read_buf_sub hr c hc)
      by_cases hle : len ≤ (acc ++ [v]).flatten.length
      · rw [if_pos hle]
        exact bufWF_unshift hb₂ _
      · rw [if_neg hle]
        have := read_some_msize s s₂ v hr
        exact ih s₂ (acc ++ [v]) (by omega) hb₂

lemma readLineGo_bufInv :
    ∀ (m : Nat) (s : ReaderState Char) (buffer : List (List Char)), msize s ≤ m →
      (∀ c ∈ bufChunks s, c ≠ []) →
      ∀ c ∈ bufChunks (readLineGo s buffer).2, c ≠ [] := by
  intro m
  induction m with
  | zero =>
    intro s buffer hm hb
    rcases hr : read s with ⟨_ | v, s₂⟩
    · rw [readLineGo_eq_none hr]
      intro c hc
      exact hb c (read_buf_sub hr c hc)
    · have := read_some_msize s s₂ v hr
      omega
  | succ n ih =>
    intro s buffer hm hb
    rcases hr : read s with ⟨_ | v, s₂⟩
    · rw [readLineGo_eq_none hr]
      intro c hc
      exact hb c (read_buf_sub hr c hc)
    · rw [readLineGo_eq_some hr]
      have hb₂ : ∀ c ∈ bufChunks s₂, c ≠ [] := fun c hc => hb c (read_buf_sub hr c hc)
      by_cases hi : lineEnd v = 0
      · rw [if_pos hi]
        have := read_some_msize s s₂ v hr
        exact ih s₂ _ (by omega) hb₂
      · rw [if_neg hi]
        exact bufWF_unshift hb₂ _

lemma readToEndGo_bufInv :
    ∀ (m : Nat) (s : ReaderState α) (acc : List (List α)), msize s ≤ m →
      (∀ c ∈ bufChunks s, c ≠ []) →
      ∀ c ∈ bufChunks (readToEndGo s acc).2, c ≠ [] := by
  intro m
  induction m with
  | zero =>
    intro s acc hm hb
    rcases hr : read s with ⟨_ | v, s₂⟩
    · rw [readToEndGo_eq_none hr]
      intro c hc
      exact hb c (read_buf_sub hr c hc)
    · have := read_some_msize s s₂ v hr
      omega
  | succ n ih =>
    intro s acc hm hb
    rcases hr : read s with ⟨_ | v, s₂⟩
    · rw [readToEndGo_eq_none hr]
      intro c hc
      exact hb c (read_buf_sub hr c hc)
    · rw [readToEndGo_eq_some hr]
      have := read_some_msize s s₂ v hr
      exact ih s₂ (acc ++ [v]) (by omega) (fun c hc => hb c (read_buf_sub hr c hc))

/-- C7: every public reader operation (`read`, `readByte`, `readBytes`,
`peekBytes`, `unshift`, `readToEnd`, `readLine`) preserves the
invariant that the push-back buffer holds only present, non-empty
chunks; `releaseLock` (heap model) leaves every array's contents
unchanged; and a newly constructed reader inherits a copy of the
attached buffer, so its buffer satisfies the invariant whenever the
attached one does. -/
theorem claim_C7_buffer_invariant_preserved :
    (∀ (s : ReaderState α), (∀ c ∈ bufChunks s, c ≠ []) →
      (∀ c ∈ bufChunks (read s).2, c ≠ []) ∧
      (∀ c ∈ bufChunks (readByte s).2, c ≠ []) ∧
      (∀ n, ∀ c ∈ bufChunks (readBytes s n).2, c ≠ []) ∧
      (∀ n, ∀ c ∈ bufChunks (peekBytes s n).2, c ≠ []) ∧
      (∀ vs, ∀ c ∈ bufChunks (unshift s vs), c ≠ []) ∧
      (∀ join : List (List α) → List α, ∀ c ∈ bufChunks (readToEnd s join).2, c ≠ [])) ∧
    (∀ (s : ReaderState Char), (∀ c ∈ bufChunks s, c ≠ []) →
      ∀ c ∈ bufChunks (readLine s).2, c ≠ []) ∧
    (∀ (w : World α) (rd : RefReader), (readerRelease w rd).cells = w.cells) ∧
    (∀ (w : World α) (r : Nat), w.streamExt = some r → (∀ c ∈ w.get r, c ≠ []) →
      ∀ c ∈ (newReader w).1.get ((newReader w).2.bufRef.getD 0), c ≠ []) := by
  refine ⟨?_, ?_, ?_, ?_⟩
  · intro s hb
    refine ⟨?_, ?_, ?_, ?_, ?_, ?_⟩
    · exact fun c hc => hb c (read_buf_sub rfl c hc)
    · rcases hr : read s with ⟨_ | v, s₂⟩ <;>
        simp only [readByte, hr]
      · exact fun c hc => hb c (read_buf_sub hr c hc)
      · exact bufWF_unshift (fun c hc => hb c (read_buf_sub hr c hc)) _
    · intro n
      exact readBytesGo_bufInv n (msize s) s [] le_rfl hb
    · intro n
      rw [peekBytes_eq]
      exact bufWF_unshift (readBytesGo_bufInv n (msize s) s [] le_rfl hb) _
    · intro vs
      exact bufWF_unshift hb vs
    · intro join
      have h2 : (readToEnd s join).2 = (readToEndGo s []).2 := by
        unfold readToEnd
        rcases readToEndGo s [] with ⟨a, t⟩
        rfl
      rw [h2]
      exact readToEndGo_bufInv (msize s) s [] le_rfl hb
  · intro s hb
    exact readLineGo_bufInv (msize s) s [] le_rfl hb
  · intro w rd
    rcases rd with ⟨_ | r⟩ <;> rfl
  · intro w r hse hc
    simp only [newReader, hse, World.alloc, World.get]
    simpa [List.getElem?_concat_length, World.get] using hc

theorem claim_C7_buffer_invariant_preserved_witness :
    (∀ c ∈ bufChunks (readBytes (⟨some [[1, 2]], [[3]], 0⟩ : ReaderState Nat) 1).2, c ≠ []) ∧
    (readerRelease (⟨[[[4]]], none, false⟩ : World Nat) ⟨some 0⟩).cells = [[[4]]] ∧
    (∀ c ∈ bufChunks (unshift (⟨none, [], 0⟩ : ReaderState Nat) [some [], none, some [9]]),
      c ≠ []) :=
  ⟨((claim_C7_buffer_invariant_preserved.1 ⟨some [[1, 2]], [[3]], 0⟩ (by decide)).2.2.1) 1,
   claim_C7_buffer_invariant_preserved.2.2.1 ⟨[[[4]]], none, false⟩ ⟨some 0⟩,
   ((claim_C7_buffer_invariant_preserved.1 ⟨none, [], 0⟩ (by decide)).2.2.2.2.1)
     [some [], none, some [9]]⟩

/-- C6 counterexample: `releaseLock` stores the buffer array's
*reference* on the input object, not a copy made at release time, so a
mutation of the released reader's buffer before the next construction
is inherited by the next reader ([2] unshifted after release appears in
the inherited buffer); moreover an existing-but-empty buffer array is
still attached (an empty JS array is truthy), refuting the
"if and only if non-empty" direction. -/
theorem claim_C6_release_copy_counterexample :
    c6AtRelease = [[1]] ∧ c6Inherited = [[2], [1]] ∧ c6Inherited ≠ c6AtRelease ∧
    (readerRelease (⟨[[]], none, false⟩ : World Nat) ⟨some 0⟩).streamExt = some 0 := by
  decide

/-- C6 amended: `releaseLock()` attaches the push-back buffer array
itself — the reference, not a copy — to the originally wrapped input
whenever the reader has a buffer array, even an empty one, and then
releases the underlying source handle (when no buffer array exists it
only releases).  The shallow copy is taken by the *next* Reader's
constructor, so mutations of the released reader's buffer before that
construction are inherited, while mutations after it are not. -/
theorem claim_C6_release_amended (w : World α) (rd : RefReader) (r : Nat)
    (hr : rd.bufRef = some r) (hvalid : r < w.cells.length) :
    (readerRelease w rd).streamExt = some r ∧
    (readerRelease w rd).cells = w.cells ∧
    (readerRelease w rd).released = true ∧
    (∀ rd0 : RefReader, rd0.bufRef = none →
      (readerRelease w rd0).streamExt = w.streamExt ∧
        (readerRelease w rd0).released = true) ∧
    ((newReader (readerRelease w rd)).2.bufRef = some w.cells.length ∧
      (newReader (readerRelease w rd)).1.get w.cells.length = w.get r) ∧
    (∀ vs, (newReader (refUnshift (readerRelease w rd) rd vs).1).1.get
        ((refUnshift (readerRelease w rd) rd vs).1.cells.length) =
      (vs.filter chunkTruthy).map (fun v => v.getD []) ++ w.get r) ∧
    (∀ vs, (refUnshift (newReader (readerRelease w rd)).1 rd vs).1.get w.cells.length =
      w.get r) := by
  have hrel : readerRelease w rd = { w with streamExt := some r, released := true } := by
    unfold readerRelease
    rw [hr]
  refine ⟨?_, ?_, ?_, ?_, ⟨?_, ?_⟩, ?_, ?_⟩
  · rw [hrel]
  · rw [hrel]
  · rw [hrel]
  · intro rd0 h0
    unfold readerRelease
    rw [h0]
    exact ⟨rfl, rfl⟩
  · rw [hrel]
    simp [newReader, World.alloc]
  · rw [hrel]
    simp [newReader, World.alloc, World.get, List.getElem?_concat_length]
  · intro vs
    rw [hrel]
    simp only [refUnshift, hr, newReader, World.setCell, World.alloc, World.get]
    simp [List.length_set, List.getElem?_concat_length, List.getElem?_set_self,
      hvalid]
  · intro vs
    rw [hrel]
    simp only [newReader, World.alloc, World.get, refUnshift, hr, World.setCell]
    simp only [List.get?_eq_getElem?]
    rw [List.getElem?_set_ne (by omega)]
    simp [List.getElem?_concat_length]

theorem claim_C6_release_amended_witness :
    (readerRelease (⟨[[[7]]], none, false⟩ : World Nat) ⟨some 0⟩).streamExt = some 0 ∧
    (newReader (refUnshift (readerRelease (⟨[[[7]]], none, false⟩ : World Nat) ⟨some 0⟩)
        ⟨some 0⟩ [some [8]]).1).1.get
      ((refUnshift (readerRelease (⟨[[[7]]], none, false⟩ : World Nat) ⟨some 0⟩)
        ⟨some 0⟩ [some [8]]).1.cells.length) = [[8], [7]] :=
  ⟨(claim_C6_release_amended ⟨[[[7]]], none, false⟩ ⟨some 0⟩ 0 rfl (by decide)).1,
   ((claim_C6_release_amended ⟨[[[7]]], none, false⟩ ⟨some 0⟩ 0 rfl
      (by decide)).2.2.2.2.2.1 [some [8]]).trans (by decide)⟩

/-- C2 counterexample: for a primitive scalar input (modelled by
`isObject = false`, e.g. a plain string or number), `WeakSet.add`
throws inside `_releaseLock`, the `catch {}` swallows it, exhaustion is
never recorded, and a second fresh reader over the same value yields
the value again instead of reporting done. -/
theorem claim_C2_exactly_once_counterexample :
    (oneShotRead (5 : Nat) false
      (oneShotRelease false
        (oneShotRead (5 : Nat) (oneShotRead (5 : Nat) false false).2 false).2
        false)).1 = some 5 ∧
    (oneShotRead (5 : Nat) false
      (oneShotRelease false
        (oneShotRead (5 : Nat) (oneShotRead (5 : Nat) false false).2 false).2
        false)).1 ≠ none := by
  decide

/-- C2 amended: for scalar values of *object* identity (values a
`WeakSet` can hold — e.g. a `Uint8Array`), reading the one-shot source
to exhaustion and releasing records exhaustion in the registry, and a
second fresh reader's first read reports done with no value; for
primitive scalar values the registration fails silently and the second
reader yields the value again. -/
theorem claim_C2_exactly_once_amended (v : α) (inSet : Bool)
    (hfresh : inSet = false) :
    (oneShotRead v false inSet).1 = some v ∧
    (oneShotRead v (oneShotRead v false inSet).2 inSet).1 = none ∧
    (oneShotRead v false
      (oneShotRelease true (oneShotRead v (oneShotRead v false inSet).2 inSet).2
        inSet)).1 = none ∧
    (oneShotRead v false
      (oneShotRelease false (oneShotRead v (oneShotRead v false inSet).2 inSet).2
        inSet)).1 = some v := by
  subst hfresh
  simp [oneShotRead, oneShotRelease]

theorem claim_C2_exactly_once_amended_witness :
    (oneShotRead (3 : Nat) false
      (oneShotRelease true
        (oneShotRead (3 : Nat) (oneShotRead (3 : Nat) false false).2 false).2
        false)).1 = none :=
  (claim_C2_exactly_once_amended (3 : Nat) false rfl).2.2.1

/-- C9: an exception raised while the drain loop of the Pull-to-Push
adapter is pulling and pushing (a rejection of `reader.read()`) is
caught and delivered downstream as a final error event, and the
solicited-read entry point `_read` always returns normally (never with
`Except.error`). -/
theorem claim_C9_drain_error_events {ε γ : Type} (cancelling : Bool)
    (accept : γ → Bool) (source : List (PullEv ε γ)) :
    (∀ e, (tryLoop cancelling accept source).2.1 = some e →
      doRead cancelling accept source =
        (tryLoop cancelling accept source).1 ++ [DownEv.errorEv e]) ∧
    (∀ reading, ∃ evs,
      nodeReadEntry reading cancelling accept source = Except.ok evs) := by
  constructor
  · intro e he
    unfold doRead
    rcases htl : tryLoop cancelling accept source with ⟨evs, ex, rflag⟩
    rw [htl] at he
    dsimp only at he ⊢
    cases ex with
    | none => exact absurd he (by simp)
    | some e2 =>
      obtain rfl : e2 = e := by simpa using he
      rfl
  · intro reading
    unfold nodeReadEntry
    by_cases hrc : reading || cancelling
    · rw [if_pos hrc]
      exact ⟨[], rfl⟩
    · rw [if_neg hrc]
      exact ⟨_, rfl⟩

theorem claim_C9_drain_error_events_witness :
    doRead false (fun _ : Nat => true) [PullEv.chunk (1 : Nat), PullEv.fail (7 : Nat)] =
      [DownEv.data 1, DownEv.errorEv 7] ∧
    ∃ evs, nodeReadEntry false false (fun _ : Nat => true)
      [PullEv.chunk (1 : Nat), PullEv.fail (7 : Nat)] = Except.ok evs :=
  ⟨((claim_C9_drain_error_events false (fun _ : Nat => true)
      [PullEv.chunk (1 : Nat), PullEv.fail (7 : Nat)]).1 7 (by decide)).trans
      (by decide),
   (claim_C9_drain_error_events false (fun _ : Nat => true)
      [PullEv.chunk (1 : Nat), PullEv.fail (7 : Nat)]).2 false⟩

end WebStreamTools
